import Mathlib

/-!
# Verification of the dx-solar-flow workflow loader

A shallow embedding of the workflow-definition loader and DAG builder of
`src/workflow/workflow.rs`, the URI/location resolver of
`src/workflow/uri.rs`, and the (spec-described) environment overlay, with
theorems settling the specification claims.

Machine strings are modelled as Lean `String`s; all text operations are
implemented structurally over `String.data` (lists of characters) so that
every definition is executable and kernel-reducible.
-/

namespace DxSolarFlow

/-! ## Generic character-list splitting and joining

`splitCh c` models Rust's `str::split(c)` / the line decomposition of a
document; `joinCh c` is the corresponding interleaving, mirroring
`Vec::join`.  Both are structural so they reduce in the kernel. -/

def splitCh (c : Char) : List Char → List (List Char)
  | [] => [[]]
  | a :: rest =>
    if a = c then [] :: splitCh c rest
    else
      match splitCh c rest with
      | [] => [[a]]
      | l :: ls => (a :: l) :: ls

def joinCh (c : Char) : List (List Char) → List Char
  | [] => []
  | [l] => l
  | l :: ls => l ++ c :: joinCh c ls

theorem splitCh_ne_nil (c : Char) (cs : List Char) : splitCh c cs ≠ [] := by
  induction cs with
  | nil => simp [splitCh]
  | cons a rest ih =>
    simp only [splitCh]
    split
    · simp
    · cases h : splitCh c rest with
      | nil => simp
      | cons l ls => simp

theorem splitCh_no_sep (c : Char) (cs : List Char) :
    ∀ l ∈ splitCh c cs, c ∉ l := by
  induction cs with
  | nil =>
    intro l hl hc
    simp [splitCh] at hl
    subst hl; simp at hc
  | cons a rest ih =>
    intro l hl
    by_cases hac : a = c
    · simp only [splitCh, if_pos hac] at hl
      rcases List.mem_cons.mp hl with h | h
      · subst h; simp
      · exact ih l h
    · simp only [splitCh, if_neg hac] at hl
      cases h : splitCh c rest with
      | nil => exact absurd h (splitCh_ne_nil c rest)
      | cons l0 ls =>
        rw [h] at hl
        rcases List.mem_cons.mp hl with h' | h'
        · subst h'
          intro hmem
          rcases List.mem_cons.mp hmem with h'' | h''
          · exact hac h''.symm
          · exact ih l0 (h ▸ List.mem_cons_self l0 ls) h''
        · exact ih l (h ▸ List.mem_cons_of_mem l0 h')

theorem splitCh_append_no_sep (c : Char) (l cs : List Char) (hl : c ∉ l) :
    splitCh c (l ++ cs) =
      (l ++ (splitCh c cs).headI) :: (splitCh c cs).tail := by
  induction l with
  | nil =>
    simp only [List.nil_append]
    cases h : splitCh c cs with
    | nil => exact absurd h (splitCh_ne_nil c cs)
    | cons l0 ls => simp [h]
  | cons a l ih =>
    have hac : ¬ a = c := by intro h; exact hl (by simp [h])
    have hl' : c ∉ l := fun h => hl (by simp [h])
    simp only [List.cons_append, splitCh, if_neg hac, List.append_eq]
    rw [ih hl']

theorem splitCh_joinCh (c : Char) (ls : List (List Char))
    (h : ∀ l ∈ ls, c ∉ l) (hne : ls ≠ []) :
    splitCh c (joinCh c ls) = ls := by
  induction ls with
  | nil => exact absurd rfl hne
  | cons l ls ih =>
    cases ls with
    | nil =>
      simp only [joinCh]
      have hl : c ∉ l := h l (by simp)
      have := splitCh_append_no_sep c l [] hl
      simpa [splitCh] using this
    | cons l1 ls1 =>
      have hl : c ∉ l := h l (by simp)
      have hrest : ∀ x ∈ l1 :: ls1, c ∉ x := by
        intro x hx; exact h x (by simp [hx])
      have ihr := ih hrest (by simp)
      show splitCh c (l ++ c :: joinCh c (l1 :: ls1)) = l :: l1 :: ls1
      rw [splitCh_append_no_sep c l (c :: joinCh c (l1 :: ls1)) hl]
      simp only [splitCh, if_pos rfl, ihr]
      simp

/-! ## String-level wrappers -/

def joinStrCh (c : Char) (ls : List String) : String :=
  String.mk (joinCh c (ls.map String.data))

inductive Yaml where
  | null : Yaml
  | bool : Bool → Yaml
  | num : Int → Yaml
  | str : String → Yaml
  | seq : List Yaml → Yaml
  | map : List (String × Yaml) → Yaml
deriving Repr

def assocLookup : List (String × Yaml) → String → Option Yaml
  | [], _ => none
  | (k, v) :: rest, key => if key = k then some v else assocLookup rest key

def Yaml.getField : Yaml → String → Option Yaml
  | .map kvs, key => assocLookup kvs key
  | _, _ => none

def Yaml.asStr : Yaml → Option String
  | .str s => some s
  | _ => none

def Yaml.asSeq : Yaml → Option (List Yaml)
  | .seq xs => some xs
  | _ => none

def Yaml.asMap : Yaml → Option (List (String × Yaml))
  | .map kvs => some kvs
  | _ => none

/-- Deserialize an optional `String` field: missing key or explicit null
gives `none`; any other non-string value is a type error. -/
def getOptStrField (v : Yaml) (key : String) :
    Except String (Option String) :=
  match v.getField key with
  | none => .ok none
  | some .null => .ok none
  | some (.str s) => .ok (some s)
  | some _ => .error ("invalid type for field " ++ key)

/-- Deserialize an optional mapping-valued field (`Option<HashMap<String,
Value>>`); the hash map is modelled as the association list of the mapping. -/
def getOptMapField (v : Yaml) (key : String) :
    Except String (Option (List (String × Yaml))) :=
  match v.getField key with
  | none => .ok none
  | some .null => .ok none
  | some (.map kvs) => .ok (some kvs)
  | some _ => .error ("invalid type for field " ++ key)

def getStrField (v : Yaml) (key : String) : Except String String :=
  match v.getField key with
  | some (.str s) => .ok s
  | some _ => .error ("invalid type for field " ++ key)
  | none => .error ("missing field " ++ key)

structure NodeDefinition where
  id : String
  name : String
  node_type : String
  action : Option String
  with_params : Option (List (String × Yaml))
deriving Repr

def NodeDefinition.fromValue (v : Yaml) : Except String NodeDefinition := do
  let id ← getStrField v "id"
  let name ← getStrField v "name"
  let node_type ← getStrField v "type"
  let action ← getOptStrField v "action"
  let with_params ← getOptMapField v "with"
  .ok ⟨id, name, node_type, action, with_params⟩

/-- All-or-nothing element decoding of a `Vec<T>` field, as serde does it. -/
def decodeList {α : Type} (f : Yaml → Except String α) :
    List Yaml → Except String (List α)
  | [] => .ok []
  | v :: rest => do
    let a ← f v
    let as ← decodeList f rest
    .ok (a :: as)

structure GraphDefinition where
  id : String
  name : String
  nodes : List NodeDefinition
deriving Repr

def GraphDefinition.fromValue (v : Yaml) : Except String GraphDefinition := do
  let id ← getStrField v "id"
  let name ← getStrField v "name"
  match v.getField "nodes" with
  | some (.seq nodeVals) => do
    let nodes ← decodeList NodeDefinition.fromValue nodeVals
    .ok ⟨id, name, nodes⟩
  | some _ => .error "invalid type for field nodes"
  | none => .error "missing field nodes"

structure WorkflowDefinition where
  id : String
  name : String
  entry_graph_id : Option String
  with_params : Option (List (String × Yaml))
  graphs : List Yaml
deriving Repr

def WorkflowDefinition.fromValue (v : Yaml) :
    Except String WorkflowDefinition := do
  let id ← getStrField v "id"
  let name ← getStrField v "name"
  let entry_graph_id ← getOptStrField v "entryGraphId"
  let with_params ← getOptMapField v "with"
  match v.getField "graphs" with
  | some (.seq graphVals) => .ok ⟨id, name, entry_graph_id, with_params, graphVals⟩
  | some _ => .error "invalid type for field graphs"
  | none => .error "missing field graphs"

/-! ## The materialized graph and the DAG builder

`Node` and `Edge` are the payload types of `src/workflow/node.rs` as used by
`workflow.rs` (a node carries `id`, `name` and the owning `subgraph` id).
`DiGraph` models `petgraph::graph::DiGraph`: `addNode` appends and never
fails, exactly like `petgraph`'s `add_node`. -/

structure Node where
  id : String
  name : String
  subgraph : String
deriving Repr, DecidableEq

structure Edge where
  id : String
  name : String
deriving Repr, DecidableEq

structure DiGraph where
  nodes : List Node
  edges : List (Nat × Nat × Edge)
deriving Repr, DecidableEq

def DiGraph.empty : DiGraph := ⟨[], []⟩

def DiGraph.addNode (g : DiGraph) (n : Node) : DiGraph :=
  { g with nodes := g.nodes ++ [n] }

def DiGraph.nodeCount (g : DiGraph) : Nat := g.nodes.length

def DiGraph.edgeCount (g : DiGraph) : Nat := g.edges.length

structure Workflow where
  id : String
  name : String
  entry_graph_id : Option String
  graph : DiGraph
deriving Repr, DecidableEq

/-- Loop body of the DAG builder: process one entry of `def.graphs`.  It is
decoded with `serde_yaml::from_value::<GraphDefinition>`; on success each of
its node definitions is inserted as a `Node` stamped with the graph's id; a
graph entry that fails to decode is skipped (`if let Ok`). -/
def buildStep (g : DiGraph) (graphValue : Yaml) : DiGraph :=
  match GraphDefinition.fromValue graphValue with
  | .ok graphDef =>
    graphDef.nodes.foldl
      (fun g nodeDef => g.addNode ⟨nodeDef.id, nodeDef.name, graphDef.id⟩) g
  | .error _ => g

/-- The DAG-building phase of `Workflow::load_from_path`
(`src/workflow/workflow.rs` lines 63–86).  No edges are ever added, and
nothing can fail: the function is total. -/
def Workflow.load (d : WorkflowDefinition) : Workflow :=
  ⟨d.id, d.name, d.entry_graph_id, d.graphs.foldl buildStep DiGraph.empty⟩

/-- `load_from_path` after include expansion, starting from the parsed
document value: deserialize the `WorkflowDefinition`, then build. -/
def loadFromValue (v : Yaml) : Except String Workflow :=
  (WorkflowDefinition.fromValue v).map Workflow.load

/-- The nodes a single decoded graph definition contributes. -/
def graphNodes (gd : GraphDefinition) : List Node :=
  gd.nodes.map (fun nd => ⟨nd.id, nd.name, gd.id⟩)

/-- The nodes one raw graph entry contributes: its decoded nodes on success,
nothing when decoding fails. -/
def graphValueNodes (v : Yaml) : List Node :=
  match GraphDefinition.fromValue v with
  | .ok gd => graphNodes gd
  | .error _ => []

theorem foldl_addNode_eq (g : DiGraph) (gid : String)
    (nds : List NodeDefinition) :
    nds.foldl (fun g nodeDef => g.addNode ⟨nodeDef.id, nodeDef.name, gid⟩) g =
    ⟨g.nodes ++ nds.map (fun nd => ⟨nd.id, nd.name, gid⟩), g.edges⟩ := by
  induction nds generalizing g with
  | nil => simp
  | cons nd rest ih =>
    rw [List.foldl_cons, ih]
    simp [DiGraph.addNode]

theorem buildStep_eq (g : DiGraph) (v : Yaml) :
    buildStep g v = ⟨g.nodes ++ graphValueNodes v, g.edges⟩ := by
  unfold buildStep graphValueNodes
  cases h : GraphDefinition.fromValue v with
  | ok gd => exact foldl_addNode_eq g gd.id gd.nodes
  | error e => simp

theorem load_graph_eq (d : WorkflowDefinition) :
    (Workflow.load d).graph =
      ⟨(d.graphs.map graphValueNodes).flatten, []⟩ := by
  show d.graphs.foldl buildStep DiGraph.empty = _
  have main : ∀ (gs : List Yaml) (g : DiGraph),
      gs.foldl buildStep g =
        ⟨g.nodes ++ (gs.map graphValueNodes).flatten, g.edges⟩ := by
    intro gs
    induction gs with
    | nil => intro g; simp
    | cons v rest ih =>
      intro g
      rw [List.foldl_cons, buildStep_eq, ih]
      simp
  rw [main d.graphs DiGraph.empty]
  rfl

/-! ## Well-formed UUIDs

The spec calls the id fields UUIDs; the code declares them as plain
`String`s.  `isUuid` is the standard 8-4-4-4-12 hexadecimal shape, used to
express what a well-formed UUID would be. -/

def isHexDigit (c : Char) : Bool :=
  ('0' ≤ c && c ≤ '9') || ('a' ≤ c && c ≤ 'f') || ('A' ≤ c && c ≤ 'F')

def isUuid (s : String) : Bool :=
  ((splitCh '-' s.data).map List.length == [8, 4, 4, 4, 12]) &&
    s.data.all (fun c => c == '-' || isHexDigit c)

/-! ## Helper lemmas about the builder -/

theorem map_graphValueNodes_of_ok (gs : List Yaml)
    (gds : List GraphDefinition)
    (h : gs.map GraphDefinition.fromValue = gds.map Except.ok) :
    gs.map graphValueNodes = gds.map graphNodes := by
  induction gs generalizing gds with
  | nil =>
    cases gds with
    | nil => rfl
    | cons _ _ => simp at h
  | cons v rest ih =>
    cases gds with
    | nil => simp at h
    | cons gd gds' =>
      simp only [List.map_cons, List.cons.injEq] at h
      simp only [List.map_cons, List.cons.injEq]
      exact ⟨by simp [graphValueNodes, h.1], ih gds' h.2⟩

/-! ## Example documents used by witnesses and counterexamples -/

def goodNodeVal : Yaml :=
  .map [("id", .str "n1"), ("name", .str "N1"), ("type", .str "action"),
        ("action", .str "CsvReader")]

def goodNodeVal2 : Yaml :=
  .map [("id", .str "n2"), ("name", .str "N2"), ("type", .str "action"),
        ("action", .str "RenameAttributes")]

def goodNodeVal3 : Yaml :=
  .map [("id", .str "n3"), ("name", .str "N3"), ("type", .str "subGraph"),
        ("subGraphId", .str "g1")]

/-- A node definition missing the required `type` tag: it fails
`NodeDefinition::deserialize`. -/
def badNodeVal : Yaml :=
  .map [("id", .str "nbad"), ("name", .str "NBad")]

def exGraph1Val : Yaml :=
  .map [("id", .str "g1"), ("name", .str "G1"), ("nodes", .seq [goodNodeVal])]

def exGraph2Val : Yaml :=
  .map [("id", .str "g2"), ("name", .str "G2"),
        ("nodes", .seq [goodNodeVal2, goodNodeVal3])]

def exDef1 : WorkflowDefinition :=
  ⟨"w1", "W1", none, none, [exGraph1Val, exGraph2Val]⟩

def exGds1 : List GraphDefinition :=
  [⟨"g1", "G1", [⟨"n1", "N1", "action", some "CsvReader", none⟩]⟩,
   ⟨"g2", "G2", [⟨"n2", "N2", "action", some "RenameAttributes", none⟩,
                 ⟨"n3", "N3", "subGraph", none, none⟩]⟩]

/-! ## Claim C1 -/

/-- C1: for every workflow definition whose graph entries all deserialize as
graph definitions, the builder materializes exactly one DAG node per declared
node definition, iterating graphs and their nodes in declaration order, so
the total node count is the sum of the per-graph node counts; every
materialized node's `subgraph` field is the id of the graph definition that
declared it. -/
theorem c1_one_node_per_definition (d : WorkflowDefinition)
    (gds : List GraphDefinition)
    (h : d.graphs.map GraphDefinition.fromValue = gds.map Except.ok) :
    (Workflow.load d).graph.nodes = (gds.map graphNodes).flatten ∧
    (Workflow.load d).graph.nodeCount =
      (gds.map (fun gd => gd.nodes.length)).sum ∧
    ∀ n ∈ (Workflow.load d).graph.nodes, ∃ gd ∈ gds,
      n.subgraph = gd.id ∧ ∃ nd ∈ gd.nodes, n.id = nd.id ∧ n.name = nd.name := by
  have hnodes : (Workflow.load d).graph.nodes = (gds.map graphNodes).flatten := by
    rw [load_graph_eq, map_graphValueNodes_of_ok d.graphs gds h]
  refine ⟨hnodes, ?_, ?_⟩
  · show (Workflow.load d).graph.nodes.length = _
    rw [hnodes, List.length_flatten, List.map_map]
    simp [Function.comp_def, graphNodes]
  · intro n hn
    rw [hnodes] at hn
    rcases List.mem_flatten.mp hn with ⟨l, hl, hnl⟩
    rcases List.mem_map.mp hl with ⟨gd, hgd, rfl⟩
    rcases List.mem_map.mp hnl with ⟨nd, hnd, rfl⟩
    exact ⟨gd, hgd, rfl, nd, hnd, rfl, rfl⟩

/-- Witness for C1 at a concrete two-graph workflow with 1 + 2 nodes. -/
theorem c1_one_node_per_definition_witness :
    exDef1.graphs.map GraphDefinition.fromValue = exGds1.map Except.ok ∧
    ((Workflow.load exDef1).graph.nodes = (exGds1.map graphNodes).flatten ∧
     (Workflow.load exDef1).graph.nodeCount =
       (exGds1.map (fun gd => gd.nodes.length)).sum ∧
     ∀ n ∈ (Workflow.load exDef1).graph.nodes, ∃ gd ∈ exGds1,
       n.subgraph = gd.id ∧ ∃ nd ∈ gd.nodes, n.id = nd.id ∧ n.name = nd.name) :=
  ⟨rfl, c1_one_node_per_definition exDef1 exGds1 rfl⟩

/-! ## Claim C2 -/

/-- A graph declaring one node plus an `edges` entry whose edge references a
node id (`ghost`) that no graph declares.  `GraphDefinition` in
`workflow.rs` has no `edges` field, so serde simply ignores the key. -/
def danglingEdgeGraphVal : Yaml :=
  .map [("id", .str "g1"), ("name", .str "G1"),
        ("nodes", .seq [goodNodeVal]),
        ("edges", .seq [.map [("id", .str "e1"), ("from", .str "n1"),
                              ("to", .str "ghost"), ("fromPort", .str "out"),
                              ("toPort", .str "in")]])]

def danglingEdgeDoc : Yaml :=
  .map [("id", .str "w1"), ("name", .str "W1"),
        ("graphs", .seq [danglingEdgeGraphVal])]

/-- C2 counterexample: the only declared edge references node id `ghost`,
which no graph declares, yet loading succeeds — there is no graph-integrity
failure, the single declared node is materialized, and the built graph has
no edges at all. -/
theorem c2_counterexample :
    loadFromValue danglingEdgeDoc =
      .ok ⟨"w1", "W1", none, ⟨[⟨"n1", "N1", "g1"⟩], []⟩⟩ ∧
    (((Workflow.load ⟨"w1", "W1", none, none,
        [danglingEdgeGraphVal]⟩).graph.nodes.map Node.id).contains "ghost")
      = false :=
  ⟨rfl, rfl⟩

/-- C2 (amended): edge declarations are ignored entirely — `GraphDefinition`
parses no `edges` field, the builder inserts only nodes, and building never
fails: every built workflow graph has an empty edge list, regardless of any
edges declared in the document (dangling or not). -/
theorem c2_edges_ignored (d : WorkflowDefinition) :
    (Workflow.load d).graph.edges = [] := by
  rw [load_graph_eq]

/-! ## Claim C3 -/

def dupNodeVal : Yaml :=
  .map [("id", .str "n1"), ("name", .str "Dup"), ("type", .str "action"),
        ("action", .str "B")]

def dupIdDoc : Yaml :=
  .map [("id", .str "w1"), ("name", .str "W1"),
        ("graphs", .seq [.map [("id", .str "g1"), ("name", .str "G1"),
                               ("nodes", .seq [goodNodeVal, dupNodeVal])]])]

/-- C3 counterexample: two node definitions carry the same id `n1`; building
does not fail — both nodes are inserted and silently coexist in the DAG. -/
theorem c3_counterexample :
    loadFromValue dupIdDoc =
      .ok ⟨"w1", "W1", none,
           ⟨[⟨"n1", "N1", "g1"⟩, ⟨"n1", "Dup", "g1"⟩], []⟩⟩ := rfl

theorem filter_map_node_length (gid s : String) (nds : List NodeDefinition) :
    ((nds.map (fun nd => Node.mk nd.id nd.name gid)).filter
        (fun n => n.id == s)).length =
      (nds.filter (fun nd => nd.id == s)).length := by
  induction nds with
  | nil => rfl
  | cons nd rest ih =>
    cases h : (nd.id == s) <;> simp [List.filter_cons, h, ih]

theorem filter_flatten_nodes (p : Node → Bool) (L : List (List Node)) :
    L.flatten.filter p = (L.map (List.filter p)).flatten := by
  induction L with
  | nil => rfl
  | cons l ls ih => simp [List.filter_append, ih]

/-- C3 (amended): duplicate node identifiers are not detected — `petgraph`'s
`add_node` never fails, so a second node with an already-present id is
inserted alongside the first: for every id, the number of materialized nodes
carrying it equals the total number of declared node definitions carrying it
across all decoded graphs. -/
theorem c3_duplicate_ids_coexist (d : WorkflowDefinition)
    (gds : List GraphDefinition)
    (h : d.graphs.map GraphDefinition.fromValue = gds.map Except.ok)
    (s : String) :
    ((Workflow.load d).graph.nodes.filter (fun n => n.id == s)).length =
      (gds.map
        (fun gd => (gd.nodes.filter (fun nd => nd.id == s)).length)).sum := by
  have hnodes : (Workflow.load d).graph.nodes = (gds.map graphNodes).flatten := by
    rw [load_graph_eq, map_graphValueNodes_of_ok d.graphs gds h]
  rw [hnodes, filter_flatten_nodes, List.length_flatten, List.map_map,
    List.map_map]
  simp [Function.comp_def, graphNodes, filter_map_node_length]

def dupDef : WorkflowDefinition :=
  ⟨"w1", "W1", none, none,
   [.map [("id", .str "g1"), ("name", .str "G1"),
          ("nodes", .seq [goodNodeVal, dupNodeVal])]]⟩

def dupGds : List GraphDefinition :=
  [⟨"g1", "G1", [⟨"n1", "N1", "action", some "CsvReader", none⟩,
                 ⟨"n1", "Dup", "action", some "B", none⟩]⟩]

/-- Witness for the amended C3 at a workflow with two nodes sharing id
`n1`. -/
theorem c3_duplicate_ids_coexist_witness :
    dupDef.graphs.map GraphDefinition.fromValue = dupGds.map Except.ok ∧
    ((Workflow.load dupDef).graph.nodes.filter (fun n => n.id == "n1")).length =
      (dupGds.map
        (fun gd => (gd.nodes.filter (fun nd => nd.id == "n1")).length)).sum :=
  ⟨rfl, c3_duplicate_ids_coexist dupDef dupGds rfl "n1"⟩

/-! ## Claim C4 -/

def mixedGraphVal : Yaml :=
  .map [("id", .str "g1"), ("name", .str "G1"),
        ("nodes", .seq [goodNodeVal, badNodeVal])]

def mixedDoc : Yaml :=
  .map [("id", .str "w1"), ("name", .str "W1"),
        ("graphs", .seq [mixedGraphVal, exGraph2Val])]

/-- C4 counterexample: graph `g1` declares the well-formed node `n1`
alongside the malformed `nbad` (no `type` tag).  Loading succeeds, but `n1`
is NOT inserted: the whole of `g1` fails `from_value` and is skipped, and
only the second graph's nodes appear. -/
theorem c4_counterexample :
    (NodeDefinition.fromValue goodNodeVal).isOk = true ∧
    (NodeDefinition.fromValue badNodeVal).isOk = false ∧
    loadFromValue mixedDoc =
      .ok ⟨"w1", "W1", none,
           ⟨[⟨"n2", "N2", "g2"⟩, ⟨"n3", "N3", "g2"⟩], []⟩⟩ :=
  ⟨rfl, rfl, rfl⟩

/-- C4 (amended): a node definition that fails to deserialize makes serde
reject the entire containing graph definition, so the build succeeds but
silently skips that whole graph — including its well-formed node
definitions; the contributions of the other graphs are unaffected. -/
theorem c4_whole_graph_skipped (d : WorkflowDefinition)
    (pre post : List Yaml) (gv : Yaml) (e : String)
    (hsplit : d.graphs = pre ++ gv :: post)
    (herr : GraphDefinition.fromValue gv = .error e) :
    (Workflow.load d).graph.nodes =
      (pre.map graphValueNodes).flatten ++
        (post.map graphValueNodes).flatten := by
  rw [load_graph_eq, hsplit]
  simp [graphValueNodes, herr]

def mixedDef : WorkflowDefinition :=
  ⟨"w1", "W1", none, none, [mixedGraphVal, exGraph2Val]⟩

/-- Witness for the amended C4: the graph holding the malformed node
contributes nothing; the second graph's two nodes survive. -/
theorem c4_whole_graph_skipped_witness :
    mixedDef.graphs = [] ++ mixedGraphVal :: [exGraph2Val] ∧
    GraphDefinition.fromValue mixedGraphVal = .error "missing field type" ∧
    (Workflow.load mixedDef).graph.nodes =
      (([] : List Yaml).map graphValueNodes).flatten ++
        ([exGraph2Val].map graphValueNodes).flatten :=
  ⟨rfl, rfl, c4_whole_graph_skipped mixedDef [] [exGraph2Val] mixedGraphVal
    "missing field type" rfl rfl⟩

/-! ## Claim C7 -/

def badUuidNodeVal : Yaml :=
  .map [("id", .str "xyz"), ("name", .str "N"), ("type", .str "action"),
        ("action", .str "A")]

def badUuidDoc : Yaml :=
  .map [("id", .str "not-a-uuid"), ("name", .str "W"),
        ("graphs", .seq [.map [("id", .str "also not a uuid"),
                               ("name", .str "G"),
                               ("nodes", .seq [badUuidNodeVal])]])]

/-- C7 counterexample: a document whose workflow id, graph id and node id
are not well-formed UUIDs parses and loads successfully — the id fields are
plain strings, so malformed UUIDs are accepted rather than rejected with a
schema error. -/
theorem c7_counterexample :
    isUuid "not-a-uuid" = false ∧ isUuid "also not a uuid" = false ∧
    isUuid "xyz" = false ∧
    loadFromValue badUuidDoc =
      .ok ⟨"not-a-uuid", "W", none,
           ⟨[⟨"xyz", "N", "also not a uuid"⟩], []⟩⟩ :=
  ⟨by decide, by decide, by decide, rfl⟩

/-- C7 (amended): the id fields of `WorkflowDefinition` and `NodeDefinition`
are deserialized as plain strings — every string value, well-formed UUID or
not, is accepted verbatim, and no UUID validation is performed during
parsing. -/
theorem c7_ids_are_plain_strings (s n t a : String) (gs : List Yaml) :
    WorkflowDefinition.fromValue
        (.map [("id", .str s), ("name", .str n), ("graphs", .seq gs)]) =
      .ok ⟨s, n, none, none, gs⟩ ∧
    NodeDefinition.fromValue
        (.map [("id", .str s), ("name", .str n), ("type", .str t),
               ("action", .str a)]) =
      .ok ⟨s, n, t, some a, none⟩ :=
  ⟨rfl, rfl⟩

/-! ## Claim C10 -/

/-- C10: on every successfully loaded document the returned workflow's
directed graph contains zero edges — only nodes are ever materialized,
regardless of any edges declared in the document. -/
theorem c10_loaded_graph_has_no_edges (v : Yaml) (wf : Workflow)
    (h : loadFromValue v = .ok wf) : wf.graph.edgeCount = 0 := by
  cases hd : WorkflowDefinition.fromValue v with
  | ok d =>
    have hw : Workflow.load d = wf := by
      simpa [loadFromValue, hd, Except.map] using h
    subst hw
    show (Workflow.load d).graph.edges.length = 0
    rw [load_graph_eq]
    rfl
  | error e => simp [loadFromValue, hd, Except.map] at h

def exDoc1 : Yaml :=
  .map [("id", .str "w1"), ("name", .str "W1"),
        ("graphs", .seq [exGraph1Val, exGraph2Val])]

def exWf1 : Workflow :=
  ⟨"w1", "W1", none,
   ⟨[⟨"n1", "N1", "g1"⟩, ⟨"n2", "N2", "g2"⟩, ⟨"n3", "N3", "g2"⟩], []⟩⟩

/-- Witness for C10 at a concrete successfully loading document. -/
theorem c10_loaded_graph_has_no_edges_witness :
    loadFromValue exDoc1 = .ok exWf1 ∧ exWf1.graph.edgeCount = 0 :=
  ⟨rfl, c10_loaded_graph_has_no_edges exDoc1 exWf1 rfl⟩


/-! ## Include expansion (`resolve_includes`, workflow.rs 89–151)

The directive regex `(?m)^(\s*)-\s*!\s*include\s+([^\n]+)` is modelled
with its real semantics: `^` anchors every match at a line start, but the
`\s` classes also match `'\n'`, so the captured indentation may swallow
whole blank lines preceding the directive, the gaps around `-`, `!` and
`include` may span newlines, and the mandatory whitespace after `include`
may run onto the next line (placing the path capture there).  Every
`\s*`/`\s+` is greedy, and since each literal that follows one (`-`, `!`,
`include`, the first `[^\n]` character) is not itself whitespace, the
whitespace runs are forced to their maximal extent — except that `\s+`
backtracks in front of `([^\n]+)` at end of input, leaving one
non-newline whitespace character for the capture.  `captures_iter` yields
disjoint matches in order, each beginning at the leftmost line start
where the whole pattern fits, and applying the substitutions from the
last offset to the first (as the Rust code does) replaces each matched
span independently; the expansion is therefore modelled as one
left-to-right scan over the raw character list.  The filesystem is passed
explicitly, and both the per-file scan and the recursion into included
files are bounded by fuel (the Rust recursion is unbounded; the inner
bound `length + 1` always suffices because every scan step consumes at
least one character). -/

/-- `Path::join` on Unix: an absolute right-hand side replaces the base,
otherwise the two are joined with a single `/`. -/
def joinPath (dir f : String) : String :=
  match f.data with
  | '/' :: _ => f
  | _ =>
    if dir = "" then f
    else if dir.data.getLast? = some '/' then dir ++ f
    else dir ++ "/" ++ f

theorem splitCh_of_no_sep (c : Char) (l : List Char) (h : c ∉ l) :
    splitCh c l = [l] := by
  induction l with
  | nil => rfl
  | cons a t ih =>
    have hac : ¬ a = c := fun hh => h (by simp [hh])
    rw [splitCh, if_neg hac, ih (fun hh => h (by simp [hh]))]

theorem splitCh_cons_sep (c : Char) (b : List Char) :
    splitCh c (c :: b) = [] :: splitCh c b := by
  rw [splitCh, if_pos rfl]

theorem splitCh_cons_ne (c ch : Char) (b l0 : List Char)
    (ls0 : List (List Char)) (hc : ¬ ch = c)
    (hs : splitCh c b = l0 :: ls0) :
    splitCh c (ch :: b) = (ch :: l0) :: ls0 := by
  rw [splitCh, if_neg hc, hs]

theorem splitCh_append_no_sep_right (c : Char) (a x : List Char)
    (hx : c ∉ x) :
    splitCh c (a ++ x) =
      (splitCh c a).dropLast ++ [(splitCh c a).getLastD [] ++ x] := by
  induction a with
  | nil =>
    rw [List.nil_append, splitCh_of_no_sep c x hx]
    rfl
  | cons ch a' ih =>
    cases hs : splitCh c a' with
    | nil => exact absurd hs (splitCh_ne_nil c a')
    | cons m0 ms0 =>
      by_cases hc : ch = c
      · subst hc
        rw [List.cons_append, splitCh_cons_sep, ih, hs, splitCh_cons_sep,
          hs]
        cases ms0 <;> simp [List.getLastD]
      · rw [List.cons_append]
        have h1 : splitCh c (a' ++ x) =
            (m0 :: ms0).dropLast ++ [(m0 :: ms0).getLastD [] ++ x] := by
          rw [ih, hs]
        rw [splitCh_cons_ne c ch a' m0 ms0 hc hs]
        cases ms0 with
        | nil =>
          rw [splitCh_cons_ne c ch (a' ++ x) (m0 ++ x) [] hc (by
            simpa [List.getLastD] using h1)]
          simp [List.getLastD]
        | cons n0 ns =>
          have h2 : splitCh c (a' ++ x) =
              m0 :: ((n0 :: ns).dropLast ++ [(n0 :: ns).getLastD [] ++ x]) := by
            rw [h1]
            simp [List.getLastD]
          rw [splitCh_cons_ne c ch (a' ++ x) m0
            ((n0 :: ns).dropLast ++ [(n0 :: ns).getLastD [] ++ x]) hc h2]
          simp [List.getLastD]

theorem joinCh_cons_ne (c : Char) (a : List Char) (L : List (List Char))
    (h : L ≠ []) : joinCh c (a :: L) = a ++ c :: joinCh c L := by
  cases L with
  | nil => exact absurd rfl h
  | cons b t => rfl

theorem joinCh_length (c : Char) (L : List (List Char)) (h : L ≠ []) :
    (joinCh c L).length + 1 = (L.map List.length).sum + L.length := by
  induction L with
  | nil => exact absurd rfl h
  | cons a L' ih =>
    cases L' with
    | nil => simp [joinCh]
    | cons b t =>
      rw [joinCh_cons_ne c a (b :: t) (by simp)]
      have := ih (by simp)
      simp only [List.length_append, List.length_cons, List.map_cons,
        List.sum_cons] at *
      omega

inductive Protocol where
  | File : Protocol
  | Ram : Protocol
deriving Repr, DecidableEq

def Protocol.asStr : Protocol → String
  | .File => "file"
  | .Ram => "ram"

def Protocol.fromStr (s : String) : Except String Protocol :=
  if s = "file" then .ok .File
  else if s = "ram" then .ok .Ram
  else .error ("Unknown protocol: " ++ s)

/-- `Protocol::separator`: `MAIN_SEPARATOR` for File (`/` on Unix), `/` for
Ram. -/
def Protocol.separator : Protocol → Char
  | .File => '/'
  | .Ram => '/'

structure Uri where
  uri : String
  protocol : Protocol
deriving Repr, DecidableEq

def PROTOCOL_SEPARATOR : String := "://"

/-- `str::split_once`: split at the first occurrence of the pattern. -/
def splitOnceL (pat : List Char) : List Char → Option (List Char × List Char)
  | [] => none
  | c :: cs =>
    if pat.isPrefixOf (c :: cs) then some ([], (c :: cs).drop pat.length)
    else
      match splitOnceL pat cs with
      | none => none
      | some (a, b) => some (c :: a, b)

def splitOnceStr (s pat : String) : Option (String × String) :=
  (splitOnceL pat.data s.data).map (fun p => (String.mk p.1, String.mk p.2))

def isAbsolute (p : String) : Bool :=
  match p.data with
  | '/' :: _ => true
  | _ => false

/-- The component loop of `normalize_path` (uri.rs 133–159): empty and `.`
pieces are skipped (as `Path::components` and the `CurDir` arm do), `..`
pops the accumulated path (`PathBuf::pop`), anything else is pushed. -/
def normalizeComponents (p : String) : List String :=
  (((splitCh '/' p.data).map String.mk).filter
    (fun c => c != "" && c != ".")).foldl
    (fun acc c => if c = ".." then acc.dropLast else acc ++ [c]) []

/-- `normalize_path`: lexical normalization, keeping a leading root. -/
def normalizePath (p : String) : String :=
  if isAbsolute p then "/" ++ joinStrCh '/' (normalizeComponents p)
  else joinStrCh '/' (normalizeComponents p)

structure UriEnv where
  homeDir : Option String
  currentDir : String

/-- The tilde-expansion step of `parse_str` (uri.rs 91–110): only `~` and
`~/…` are accepted; the `~` byte is replaced by the home directory. -/
def resolveFilePath (env : UriEnv) (path0 : String) :
    Except String String :=
  match path0.data with
  | '~' :: rest =>
    if path0.data.length > 1 && !(("~/".data).isPrefixOf path0.data) then
      .error
        "failed to normalize URI: tilde expansion is only partially supported"
    else
      match env.homeDir with
      | none =>
        .error "failed to normalize URI: could not resolve home directory"
      | some h => .ok (h ++ String.mk rest)
  | _ => .ok path0

/-- The file-protocol tail of `parse_str`: tilde expansion, resolution of a
relative path against the current directory, then lexical
normalization. -/
def parseFileTail (env : UriEnv) (path0 : String) : Except String Uri :=
  match resolveFilePath env path0 with
  | .error e => .error e
  | .ok path1 =>
    .ok ⟨"file" ++ PROTOCOL_SEPARATOR ++
      normalizePath (if isAbsolute path1 then path1
                     else joinPath env.currentDir path1), .File⟩

/-- `Uri::parse_str` (uri.rs 83–125). -/
def parseStr (env : UriEnv) (uriStr : String) : Except String Uri :=
  if uriStr = "" then .error "URI cannot be empty"
  else
    match splitOnceStr uriStr PROTOCOL_SEPARATOR with
    | none => parseFileTail env uriStr
    | some (pr, path) =>
      match Protocol.fromStr pr with
      | .error e => .error e
      | .ok .File => parseFileTail env path
      | .ok .Ram => .ok ⟨"ram" ++ PROTOCOL_SEPARATOR ++ path, .Ram⟩

/-- The stored path of a location: the `uri` string after
`<protocol>://`, as `Uri::_path`/`Uri::path` slice it. -/
def Uri.storedPath (u : Uri) : String :=
  String.mk (u.uri.data.drop
    (u.protocol.asStr.length + PROTOCOL_SEPARATOR.length))

def pathComponents (p : String) : List String :=
  ((splitCh '/' p.data).map String.mk).filter (fun c => c != "")

def noDotComponents (p : String) : Bool :=
  (pathComponents p).all (fun c => c != "." && c != "..")

/-! ## Claim C6 -/

theorem fold_dots_prop (cs : List String) (acc : List String)
    (hcs : ∀ c ∈ cs, (c != "" && c != ".") = true ∧ '/' ∉ c.data)
    (hacc : ∀ c ∈ acc, c ≠ "" ∧ c ≠ "." ∧ c ≠ ".." ∧ '/' ∉ c.data) :
    ∀ c ∈ cs.foldl (fun acc c => if c = ".." then acc.dropLast
      else acc ++ [c]) acc,
      c ≠ "" ∧ c ≠ "." ∧ c ≠ ".." ∧ '/' ∉ c.data := by
  induction cs generalizing acc with
  | nil => exact hacc
  | cons c cs ih =>
    intro x hx
    rw [List.foldl_cons] at hx
    by_cases hc : c = ".."
    · rw [if_pos hc] at hx
      exact ih acc.dropLast
        (fun y hy => hcs y (List.mem_cons_of_mem c hy))
        (fun y hy => hacc y (List.mem_of_mem_dropLast hy)) x hx
    · rw [if_neg hc] at hx
      refine ih (acc ++ [c])
        (fun y hy => hcs y (List.mem_cons_of_mem c hy)) ?_ x hx
      intro y hy
      rcases List.mem_append.mp hy with hy | hy
      · exact hacc y hy
      · rcases List.mem_singleton.mp hy with rfl
        have h1 := (hcs y (by simp)).1
        have h2 := (hcs y (by simp)).2
        simp only [Bool.and_eq_true, bne_iff_ne, ne_eq] at h1
        exact ⟨h1.1, h1.2, hc, h2⟩

theorem normalizeComponents_prop (p : String) :
    ∀ c ∈ normalizeComponents p, c ≠ "" ∧ c ≠ "." ∧ c ≠ ".." ∧
      '/' ∉ c.data := by
  refine fold_dots_prop _ [] ?_ (by simp)
  intro c hc
  have h12 := List.mem_filter.mp hc
  obtain ⟨cl, hcl, rfl⟩ := List.mem_map.mp h12.1
  exact ⟨h12.2, splitCh_no_sep '/' p.data cl hcl⟩

theorem pathComponents_slash_prepend (s : String) :
    pathComponents ("/" ++ s) = pathComponents s := by
  unfold pathComponents
  rw [String.data_append, show ("/" : String).data = ['/'] from rfl,
    List.singleton_append]
  rw [show splitCh '/' ('/' :: s.data) = [] :: splitCh '/' s.data from by
    simp [splitCh]]
  simp

theorem pathComponents_join (final : List String)
    (h : ∀ c ∈ final, c ≠ "" ∧ '/' ∉ c.data) :
    pathComponents (joinStrCh '/' final) = final := by
  cases final with
  | nil => rfl
  | cons a rest =>
    have hnn : ∀ x ∈ (a :: rest).map String.data, '/' ∉ x := by
      intro x hx
      obtain ⟨y, hy, rfl⟩ := List.mem_map.mp hx
      exact (h y hy).2
    have hr := splitCh_joinCh '/' ((a :: rest).map String.data) hnn (by simp)
    unfold pathComponents joinStrCh
    rw [show (String.mk (joinCh '/' ((a :: rest).map String.data))).data
      = joinCh '/' ((a :: rest).map String.data) from rfl, hr, List.map_map]
    rw [show (String.mk ∘ String.data) = id from funext fun x => rfl,
      List.map_id]
    refine List.filter_eq_self.mpr ?_
    intro x hx
    simpa using (h x hx).1

theorem noDotComponents_normalizePath (p : String) :
    noDotComponents (normalizePath p) = true := by
  have hfin := normalizeComponents_prop p
  have hjoin : pathComponents (joinStrCh '/' (normalizeComponents p)) =
      normalizeComponents p :=
    pathComponents_join _ (fun c hc => ⟨(hfin c hc).1, (hfin c hc).2.2.2⟩)
  have hall : (normalizeComponents p).all
      (fun c => c != "." && c != "..") = true := by
    rw [List.all_eq_true]
    intro c hc
    simp only [Bool.and_eq_true, bne_iff_ne, ne_eq]
    exact ⟨(hfin c hc).2.1, (hfin c hc).2.2.1⟩
  unfold normalizePath noDotComponents
  by_cases habs : isAbsolute p = true
  · rw [if_pos habs, pathComponents_slash_prepend, hjoin]
    exact hall
  · rw [if_neg habs, hjoin]
    exact hall

theorem storedPath_file (q : String) :
    Uri.storedPath ⟨"file" ++ PROTOCOL_SEPARATOR ++ q, .File⟩ = q := by
  obtain ⟨qd⟩ := q
  rfl

theorem parseFileTail_normalized (env : UriEnv) (path0 : String) (u : Uri)
    (h : parseFileTail env path0 = .ok u) :
    noDotComponents (Uri.storedPath u) = true := by
  unfold parseFileTail at h
  cases hr : resolveFilePath env path0 with
  | error e => rw [hr] at h; exact absurd h (by simp)
  | ok path1 =>
    rw [hr] at h
    have hu : u = ⟨"file" ++ PROTOCOL_SEPARATOR ++
        normalizePath (if isAbsolute path1 then path1
                       else joinPath env.currentDir path1), .File⟩ := by
      cases h
      rfl
    rw [hu, storedPath_file]
    exact noDotComponents_normalizePath _

/-- C6 (amended): every successfully resolved file-protocol location's
stored path contains no `.` or `..` components (it passed through
`normalize_path`, and the separator is the native `/` of the modelled Unix
platform); ram-protocol paths, by contrast, are stored verbatim. -/
theorem c6_file_paths_normalized (env : UriEnv) (s : String) (u : Uri)
    (h : parseStr env s = .ok u) (hp : u.protocol = .File) :
    noDotComponents (Uri.storedPath u) = true := by
  unfold parseStr at h
  by_cases hs : s = ""
  · rw [if_pos hs] at h
    exact absurd h (by simp)
  rw [if_neg hs] at h
  cases hsp : splitOnceStr s PROTOCOL_SEPARATOR with
  | none =>
    rw [hsp] at h
    exact parseFileTail_normalized env s u h
  | some pr =>
    obtain ⟨prot, path⟩ := pr
    rw [hsp] at h
    have h' : (match Protocol.fromStr prot with
        | .error e => (Except.error e : Except String Uri)
        | .ok .File => parseFileTail env path
        | .ok .Ram =>
          .ok ⟨"ram" ++ PROTOCOL_SEPARATOR ++ path, .Ram⟩) = .ok u := h
    cases hpr : Protocol.fromStr prot with
    | error e => rw [hpr] at h'; exact absurd h' (by simp)
    | ok p =>
      rw [hpr] at h'
      cases p with
      | File => exact parseFileTail_normalized env path u h'
      | Ram =>
        exfalso
        have hu : Except.ok (Uri.mk ("ram" ++ PROTOCOL_SEPARATOR ++ path)
            .Ram) = Except.ok u := h'
        cases hu
        exact absurd hp (by simp)

/-- C6 counterexample: a ram-protocol location resolves successfully but its
stored path keeps the `..` component verbatim — the in-memory branch of
`parse_str` performs no normalization at all. -/
theorem c6_counterexample :
    parseStr ⟨some "/home/u", "/cwd"⟩ "ram://a/../b" =
      .ok ⟨"ram://a/../b", .Ram⟩ ∧
    noDotComponents (Uri.storedPath ⟨"ram://a/../b", .Ram⟩) = false :=
  ⟨rfl, rfl⟩

/-- Witness for the amended C6 on a file URI carrying both `.` and `..`. -/
theorem c6_file_paths_normalized_witness :
    parseStr ⟨some "/home/u", "/cwd"⟩ "file:///a/./b/../c" =
      .ok ⟨"file:///a/c", .File⟩ ∧
    (Uri.mk "file:///a/c" .File).protocol = .File ∧
    noDotComponents (Uri.storedPath ⟨"file:///a/c", .File⟩) = true :=
  ⟨rfl, rfl, c6_file_paths_normalized ⟨some "/home/u", "/cwd"⟩
    "file:///a/./b/../c" ⟨"file:///a/c", .File⟩ rfl rfl⟩

/-! ## Claim C8: environment overlay

No code under `src/` implements the environment overlay of spec §4.4 (no
crate file reads prefixed environment variables), so the component is
modelled from the spec and the claim is settled against that model. -/

def digitVal (c : Char) : Option Nat :=
  if '0' ≤ c ∧ c ≤ '9' then some (c.toNat - '0'.toNat) else none

def parseNatChars : List Char → Option Nat
  | [] => none
  | cs =>
    cs.foldl (fun acc c =>
      match acc, digitVal c with
      | some a, some d => some (a * 10 + d)
      | _, _ => none) (some 0)

def parseIntStr (s : String) : Option Int :=
  match s.data with
  | '-' :: rest => (parseNatChars rest).map (fun n => -(n : Int))
  | cs => (parseNatChars cs).map (fun n => (n : Int))

/-- Modelled from the spec: the format-aware value coercion of §4.4 step 3
(interpret the raw value as JSON, then as YAML, falling back to the opaque
string), restricted to scalar values; total — there is no error case. -/
def coerceValue (raw : String) : Yaml :=
  if raw = "null" then .null
  else if raw = "true" then .bool true
  else if raw = "false" then .bool false
  else
    match parseIntStr raw with
    | some n => .num n
    | none => .str raw

/-- Modelled from the spec: the merge proper of §4.4 — filter the supplied
environment mapping to names carrying the fixed prefix, strip the prefix,
keep only candidate keys already declared among `params`, coerce the raw
values, and merge them over the declared values in order. -/
def overlayParams (pfx : String) (params : List (String × Yaml))
    (env : List (String × String)) : List (String × Yaml) :=
  ((env.filterMap (fun e =>
    if pfx.data.isPrefixOf e.1.data then
      some (String.mk (e.1.data.drop pfx.data.length), e.2)
    else none)).filter
    (fun e => params.any (fun p => p.1 == e.1))).foldl
    (fun ps e => ps.map (fun p =>
      if p.1 = e.1 then (p.1, coerceValue e.2) else p)) params

/-- Modelled from the spec: the environment overlay of §4.4, absent from
`src/` (an absent parameter map rejects all candidates).  A pure total
function with no error case. -/
def applyEnvironment (pfx : String) (wf : WorkflowDefinition)
    (env : List (String × String)) : WorkflowDefinition :=
  match wf.with_params with
  | none => wf
  | some params =>
    { wf with with_params := some (overlayParams pfx params env) }

def lookupParam (wf : WorkflowDefinition) (k : String) : Option Yaml :=
  match wf.with_params with
  | none => none
  | some ps => assocLookup ps k

theorem assocLookup_overlay_ne (ps : List (String × Yaml)) (k k' : String)
    (v' : String) (hne : k ≠ k') :
    assocLookup (ps.map (fun p => if p.1 = k' then (p.1, coerceValue v')
      else p)) k = assocLookup ps k := by
  induction ps with
  | nil => rfl
  | cons p rest ih =>
    obtain ⟨a, b⟩ := p
    rw [List.map_cons]
    show assocLookup ((if a = k' then (a, coerceValue v') else (a, b)) ::
      rest.map (fun p => if p.1 = k' then (p.1, coerceValue v') else p)) k
      = _
    by_cases hak : a = k'
    · rw [if_pos hak]
      show (if k = a then some (coerceValue v')
        else assocLookup (rest.map _) k) = _
      by_cases hka : k = a
      · exact absurd (hka.trans hak) hne
      · rw [if_neg hka, ih]
        show _ = (if k = a then some b else assocLookup rest k)
        rw [if_neg hka]
    · rw [if_neg hak]
      show (if k = a then some b else assocLookup (rest.map _) k) = _
      by_cases hka : k = a
      · rw [if_pos hka]
        show _ = (if k = a then some b else assocLookup rest k)
        rw [if_pos hka]
      · rw [if_neg hka, ih]
        show _ = (if k = a then some b else assocLookup rest k)
        rw [if_neg hka]

theorem assocLookup_overlay_eq (ps : List (String × Yaml)) (k : String)
    (v' : String) (w : Yaml) (hw : assocLookup ps k = some w) :
    assocLookup (ps.map (fun p => if p.1 = k then (p.1, coerceValue v')
      else p)) k = some (coerceValue v') := by
  induction ps with
  | nil => simp [assocLookup] at hw
  | cons p rest ih =>
    obtain ⟨a, b⟩ := p
    rw [List.map_cons]
    show assocLookup ((if a = k then (a, coerceValue v') else (a, b)) ::
      rest.map (fun p => if p.1 = k then (p.1, coerceValue v') else p)) k
      = _
    by_cases hka : k = a
    · rw [if_pos hka.symm]
      show (if k = a then some (coerceValue v')
        else assocLookup (rest.map _) k) = _
      rw [if_pos hka]
    · rw [if_neg (fun h => hka h.symm)]
      show (if k = a then some b else assocLookup (rest.map _) k) = _
      rw [if_neg hka]
      rw [assocLookup, if_neg hka] at hw
      exact ih hw

theorem foldl_overlay_lookup (es : List (String × String))
    (ps : List (String × Yaml)) (k : String) (v : String)
    (hval : ∀ e ∈ es, e.1 = k → e.2 = v)
    (hsome : ∃ w, assocLookup ps k = some w)
    (hbase : (k, v) ∈ es ∨ assocLookup ps k = some (coerceValue v)) :
    assocLookup (es.foldl (fun ps e => ps.map (fun p =>
      if p.1 = e.1 then (p.1, coerceValue e.2) else p)) ps) k =
      some (coerceValue v) := by
  induction es generalizing ps with
  | nil =>
    rcases hbase with h | h
    · simp at h
    · exact h
  | cons e rest ih =>
    obtain ⟨k1, v1⟩ := e
    obtain ⟨w, hw⟩ := hsome
    rw [List.foldl_cons]
    by_cases hk1 : k1 = k
    · have hv1 : v1 = v := hval (k1, v1) (by simp) hk1
      have hstep : assocLookup (ps.map (fun p =>
          if p.1 = (k1, v1).1 then (p.1, coerceValue (k1, v1).2) else p)) k
          = some (coerceValue v) := by
        show assocLookup (ps.map (fun p =>
          if p.1 = k1 then (p.1, coerceValue v1) else p)) k = _
        rw [hk1, hv1]
        exact assocLookup_overlay_eq ps k v w hw
      exact ih _ (fun e he h1 => hval e (List.mem_cons_of_mem _ he) h1)
        ⟨coerceValue v, hstep⟩ (Or.inr hstep)
    · have hstep : assocLookup (ps.map (fun p =>
          if p.1 = (k1, v1).1 then (p.1, coerceValue (k1, v1).2) else p)) k
          = assocLookup ps k := by
        show assocLookup (ps.map (fun p =>
          if p.1 = k1 then (p.1, coerceValue v1) else p)) k = _
        exact assocLookup_overlay_ne ps k k1 v1 (fun h => hk1 h.symm)
      refine ih _ (fun e he h1 => hval e (List.mem_cons_of_mem _ he) h1)
        ⟨w, by rw [hstep]; exact hw⟩ ?_
      rcases hbase with h | h
      · rcases List.mem_cons.mp h with h | h
        · exfalso
          exact hk1 (congrArg Prod.fst h).symm
        · exact Or.inl h
      · exact Or.inr (by rw [hstep]; exact h)

theorem assocLookup_isSome_of_any (ps : List (String × Yaml)) (k : String)
    (h : ps.any (fun p => p.1 == k) = true) :
    ∃ w, assocLookup ps k = some w := by
  induction ps with
  | nil => simp at h
  | cons p rest ih =>
    obtain ⟨a, b⟩ := p
    by_cases hka : k = a
    · exact ⟨b, by rw [assocLookup, if_pos hka]⟩
    · rw [assocLookup, if_neg hka]
      apply ih
      simp only [List.any_cons, Bool.or_eq_true] at h
      rcases h with h | h
      · exact absurd (by simpa using h : a = k) (fun hh => hka hh.symm)
      · exact h

theorem applyEnvironment_params (pfx : String) (wf : WorkflowDefinition)
    (env : List (String × String)) (params : List (String × Yaml))
    (hp : wf.with_params = some params) :
    applyEnvironment pfx wf env =
      { wf with with_params := some (overlayParams pfx params env) } := by
  unfold applyEnvironment
  rw [hp]

theorem with_params_eta (wf : WorkflowDefinition)
    (params : List (String × Yaml)) (hp : wf.with_params = some params) :
    ({ wf with with_params := some params } : WorkflowDefinition) = wf := by
  cases wf
  simp only at hp
  simp [hp]

/-- C8: the (spec-modelled) environment overlay is a pure total function
with no error case: an absent parameter map is returned unchanged; when no
prefixed variable's stripped key is declared, the workflow is returned
unchanged; and a variable named prefix-plus-declared-key overrides that
parameter's value with the coerced raw value. -/
theorem c8_environment_overlay (pfx : String) (wf : WorkflowDefinition)
    (env : List (String × String)) :
    (wf.with_params = none → applyEnvironment pfx wf env = wf) ∧
    (∀ params, wf.with_params = some params →
      (∀ e ∈ env, pfx.data.isPrefixOf e.1.data = true →
        params.all
          (fun p => p.1 != String.mk (e.1.data.drop pfx.data.length))
          = true) →
      applyEnvironment pfx wf env = wf) ∧
    (∀ params k v, wf.with_params = some params →
      (pfx ++ k, v) ∈ env →
      (∀ e ∈ env, pfx.data.isPrefixOf e.1.data = true →
        String.mk (e.1.data.drop pfx.data.length) = k → e.2 = v) →
      params.any (fun p => p.1 == k) = true →
      lookupParam (applyEnvironment pfx wf env) k
        = some (coerceValue v)) := by
  refine ⟨?_, ?_, ?_⟩
  · intro hnone
    unfold applyEnvironment
    rw [hnone]
  · intro params hparams h2
    rw [applyEnvironment_params pfx wf env params hparams]
    have hov : overlayParams pfx params env = params := by
      unfold overlayParams
      have hacc : ((env.filterMap (fun e =>
          if pfx.data.isPrefixOf e.1.data then
            some (String.mk (e.1.data.drop pfx.data.length), e.2)
          else none)).filter
          (fun e => params.any (fun p => p.1 == e.1))) = [] := by
        rw [List.filter_eq_nil_iff]
        intro cand hcand
        obtain ⟨e, he, hfe⟩ := List.mem_filterMap.mp hcand
        by_cases hpref : pfx.data.isPrefixOf e.1.data = true
        · rw [if_pos hpref] at hfe
          cases hfe
          have hall := h2 e he hpref
          rw [List.all_eq_true] at hall
          simp only [Bool.not_eq_true]
          rw [List.any_eq_false]
          intro p hp
          have := hall p hp
          simpa using this
        · rw [if_neg hpref] at hfe
          exact absurd hfe (by simp)
      rw [hacc, List.foldl_nil]
    rw [hov]
    exact with_params_eta wf params hparams
  · intro params k v hparams hmem h3 hany
    rw [applyEnvironment_params pfx wf env params hparams]
    show assocLookup (overlayParams pfx params env) k = some (coerceValue v)
    unfold overlayParams
    have hkdata : (pfx ++ k).data = pfx.data ++ k.data :=
      String.data_append pfx k
    have hkpref : pfx.data.isPrefixOf (pfx ++ k).data = true := by
      rw [hkdata]
      exact List.isPrefixOf_iff_prefix.mpr (List.prefix_append _ _)
    have hkdrop : String.mk ((pfx ++ k).data.drop pfx.data.length) = k := by
      rw [hkdata, List.drop_left]
    have hcand : (k, v) ∈ env.filterMap (fun e =>
        if pfx.data.isPrefixOf e.1.data then
          some (String.mk (e.1.data.drop pfx.data.length), e.2)
        else none) := by
      rw [List.mem_filterMap]
      refine ⟨(pfx ++ k, v), hmem, ?_⟩
      rw [if_pos hkpref]
      rw [hkdrop]
    have haccmem : (k, v) ∈ (env.filterMap (fun e =>
        if pfx.data.isPrefixOf e.1.data then
          some (String.mk (e.1.data.drop pfx.data.length), e.2)
        else none)).filter
        (fun e => params.any (fun p => p.1 == e.1)) :=
      List.mem_filter.mpr ⟨hcand, by simpa using hany⟩
    have hval : ∀ e ∈ (env.filterMap (fun e =>
        if pfx.data.isPrefixOf e.1.data then
          some (String.mk (e.1.data.drop pfx.data.length), e.2)
        else none)).filter
        (fun e => params.any (fun p => p.1 == e.1)),
        e.1 = k → e.2 = v := by
      intro cand hcandm hck
      obtain ⟨e, he, hfe⟩ := List.mem_filterMap.mp
        (List.mem_of_mem_filter hcandm)
      by_cases hpref : pfx.data.isPrefixOf e.1.data = true
      · rw [if_pos hpref] at hfe
        cases hfe
        exact h3 e he hpref hck
      · rw [if_neg hpref] at hfe
        exact absurd hfe (by simp)
    exact foldl_overlay_lookup _ params k v hval
      (assocLookup_isSome_of_any params k hany) (Or.inl haccmem)

def wf8 : WorkflowDefinition :=
  ⟨"w", "W", none, some [("threshold", Yaml.num 1)], []⟩

def env8 : List (String × String) := [("DXF_threshold", "5")]

def env8u : List (String × String) := [("DXF_unknownKey", "5")]

/-- Witness for C8 on the spec's own example: `<PREFIX>threshold=5`
overrides the declared `threshold: 1` (the coerced value is the number 5),
while `<PREFIX>unknownKey=5` leaves the workflow unchanged. -/
theorem c8_environment_overlay_witness :
    wf8.with_params = some [("threshold", Yaml.num 1)] ∧
    ("DXF_" ++ "threshold", "5") ∈ env8 ∧
    (∀ e ∈ env8, ("DXF_" : String).data.isPrefixOf e.1.data = true →
      String.mk (e.1.data.drop ("DXF_" : String).data.length) = "threshold" →
      e.2 = "5") ∧
    ([("threshold", Yaml.num 1)].any
      (fun p => p.1 == "threshold")) = true ∧
    lookupParam (applyEnvironment "DXF_" wf8 env8) "threshold"
      = some (coerceValue "5") ∧
    coerceValue "5" = Yaml.num 5 ∧
    (∀ e ∈ env8u, ("DXF_" : String).data.isPrefixOf e.1.data = true →
      ([("threshold", Yaml.num 1)].all (fun p =>
        p.1 != String.mk
          (e.1.data.drop ("DXF_" : String).data.length))) = true) ∧
    applyEnvironment "DXF_" wf8 env8u = wf8 :=
  ⟨rfl, by decide, by decide, by decide,
   (c8_environment_overlay "DXF_" wf8 env8).2.2
     [("threshold", Yaml.num 1)] "threshold" "5" rfl (by decide) (by decide)
     (by decide),
   rfl,
   by decide,
   (c8_environment_overlay "DXF_" wf8 env8u).2.1
     [("threshold", Yaml.num 1)] rfl (by decide)⟩

end DxSolarFlow
